import Mathlib

/-!
Verification of `sage/modules/with_basis/subquotient.py`: submodules and
quotients of a free module with basis, defined by an echelon-form basis,
together with the triangular lift/retract/reduce machinery.

The ambient module with basis is modelled as `Fin n → K` over a field `K`
with decidable equality (the source is generic over the base ring of the
`CombinatorialFreeModule`; the elimination requires exact division at
pivots, so a field is the faithful carrier, and the `unitriangular` flag
switches the division-free path exactly as in the source).

A `SubmoduleWithBasis` is the data passed to the source constructor
(`basis`, `support_order`, `unitriangular`); the ambient module is
`Fin n → K` and submodule elements are coefficient vectors `Fin k → K`
on the `k` basis generators.

The triangular solver behind `lift.section()` (retract),
`lift.cokernel_projection()` (reduce) and `cokernel_basis_indices` lives
in `sage.modules.with_basis.morphism` / `sage.categories.modules_with_basis`,
which are not part of this repository snapshot; those operations are
modelled from the spec (sections 3 and 4.1), with the orientation fixed by
the spec's echelon invariant (each echelon vector vanishes at every index
of rank below its pivot and has a nonzero pivot coefficient) and by the
spec's concrete scenario (`I = span(x0-x1, x1-x2)`, support order
`[0,1,2]`, cokernel index `{2}`, `reduce(2*x0 + x1) == 3*x2`).
-/

namespace Subquotient

/-- The constructor data of `SubmoduleWithBasis` (source lines 197-249):
a family of `k` ambient vectors (`basis`), an ordering of the ambient
support (`support_order`), and the `unitriangular` flag. The ambient
module is `Fin n → K`. -/
structure SubmoduleWithBasis (K : Type) (n k : ℕ) where
  basis : Fin k → Fin n → K
  support_order : List (Fin n)
  unitriangular : Bool

variable {K : Type} [Field K] [DecidableEq K] {n k : ℕ}

/-- `lift` (source lines 264-289): the linear extension of
generator `i ↦ basis[i]`, embedding a submodule element (a coefficient
vector on the generators) into the ambient module. -/
def lift (S : SubmoduleWithBasis K n k) (y : Fin k → K) : Fin n → K :=
  fun m => ∑ i, y i * S.basis i m

/-- Modelled from the spec: the pivot of generator `i` is the
first ambient index in the support order at which the echelon vector
`basis[i]` has a nonzero coefficient (spec section 3: the echelon vector
vanishes at every rank below its pivot and is nonzero at the pivot rank;
the pivot is computed, `inverse_on_support="compute"` in the source). -/
def pivot (S : SubmoduleWithBasis K n k) (i : Fin k) : Option (Fin n) :=
  S.support_order.find? (fun m => decide (S.basis i m ≠ 0))

/-- Modelled from the spec: the generator whose pivot is the ambient
index `j`, if any (the inverse-on-support lookup of the triangular
morphism). -/
def pivotGen (S : SubmoduleWithBasis K n k) (j : Fin n) : Option (Fin k) :=
  (List.finRange k).find? (fun i => decide (pivot S i = some j))

/-- Modelled from the spec: the multiplier of one elimination step at
pivot index `j` of generator `i`, for a residual coefficient `t`:
`t / pivot_coeff` in general; when `unitriangular` is set the pivot
coefficient is the identity and the division is skipped (spec
section 4.1). -/
def elimCoeff (S : SubmoduleWithBasis K n k) (i : Fin k) (j : Fin n) (t : K) : K :=
  if S.unitriangular then t else t / S.basis i j

/-- Modelled from the spec: the elimination loop of
`TriangularSolver.reduce`. Ambient indices are processed in support
order; at an index that is some generator's pivot, the corresponding
multiple of that echelon vector is subtracted from the residual; at an
index with no pivot the coefficient is left in place (it belongs to the
cokernel). The final residual is returned. -/
def reduceAux (S : SubmoduleWithBasis K n k) :
    List (Fin n) → (Fin n → K) → (Fin n → K)
  | [], r => r
  | j :: rest, r =>
    match pivotGen S j with
    | some i => reduceAux S rest (fun m => r m - elimCoeff S i j (r j) * S.basis i m)
    | none => reduceAux S rest r

/-- `reduce` (source lines 291-315, `lift.cokernel_projection()`),
modelled from the spec: eliminate all pivot components from `v` and
return the residual itself as an ambient element. Total. -/
def reduce (S : SubmoduleWithBasis K n k) (v : Fin n → K) : Fin n → K :=
  reduceAux S S.support_order v

/-- Modelled from the spec: the elimination loop of
`TriangularSolver.solve_coefficients`, accumulating the coefficient of
each generator used. At an index with no pivot, a nonzero residual
coefficient means the vector is not in the span: fail (`none`, the
`NotInSpanError` outcome). At the end the residual must be the zero
vector, else fail. -/
def solveAux (S : SubmoduleWithBasis K n k) :
    List (Fin n) → (Fin n → K) → (Fin k → K) → Option (Fin k → K)
  | [], r, acc => if ∀ m, r m = 0 then some acc else none
  | j :: rest, r, acc =>
    match pivotGen S j with
    | some i =>
      solveAux S rest (fun m => r m - elimCoeff S i j (r j) * S.basis i m)
        (fun i2 => if i2 = i then acc i2 + elimCoeff S i j (r j) else acc i2)
    | none => if r j = 0 then solveAux S rest r acc else none

/-- Modelled from the spec: `solve_coefficients(v)` — the coefficient
vector of `v` in the echelon family, or `none` (`NotInSpanError`) when
`v` is not in the span. -/
def solve_coefficients (S : SubmoduleWithBasis K n k) (v : Fin n → K) :
    Option (Fin k → K) :=
  solveAux S S.support_order v (fun _ => 0)

/-- `retract` (source lines 317-339, `lift.section()`), modelled from
the spec: solve the triangular system and re-express the result as a
submodule element; `none` is the `NotInSpanError` outcome. -/
def retract (S : SubmoduleWithBasis K n k) (v : Fin n → K) : Option (Fin k → K) :=
  solve_coefficients S v

/-- Modelled from the spec: `cokernel_basis_indices` — the ambient basis
indices not used as pivots by the submodule; they index the basis of the
quotient. -/
def QuotientIndex (S : SubmoduleWithBasis K n k) : Type :=
  {j : Fin n // pivotGen S j = none}

/-- `QuotientModuleWithBasis.lift` (source lines 124-140): embed a
quotient element into the ambient module by sending each cokernel index
to the corresponding ambient basis element itself. -/
def quotient_lift (S : SubmoduleWithBasis K n k) (x : QuotientIndex S → K) :
    Fin n → K :=
  fun j => if h : pivotGen S j = none then x ⟨j, h⟩ else 0

/-- `QuotientModuleWithBasis.retract` (source lines 142-162): reduce
modulo the submodule, then rebuild a quotient element from the residual
coefficients (`self._from_dict(self._submodule.reduce(x)._monomial_coefficients)`);
the rebuild fails (`none`) if a nonzero residual coefficient sits at an
index outside the quotient's index set. -/
def quotient_retract (S : SubmoduleWithBasis K n k) (v : Fin n → K) :
    Option (QuotientIndex S → K) :=
  if ∀ j, reduce S v j ≠ 0 → pivotGen S j = none then
    some (fun jq => reduce S v jq.val)
  else none

/-- The generator loop of `is_submodule` (source lines 368-373): every
basis generator of `self` (whose lift is the stored ambient vector
`basis[i]`) must retract successfully into `other`. -/
def is_submodule_generators {k2 : ℕ} (self : SubmoduleWithBasis K n k)
    (other : SubmoduleWithBasis K n k2) : Bool :=
  (List.finRange k).all (fun i => (retract other (self.basis i)).isSome)

/-- Possible outcomes of one call to `is_submodule`: a returned boolean,
a raised `ValueError`, or a raised `NotImplementedError`. -/
inductive IsSubmoduleOutcome where
  | boolean (b : Bool)
  | raise_value_error
  | raise_not_implemented
  deriving DecidableEq

/-- `is_submodule` (source lines 341-373), with its control flow embedded
branch by branch. `other_is_ambient` models the identity test
`other is self.ambient()` (line 362); `self_is_instance` models
`isinstance(self, SubmoduleWithBasis)` (line 364), which is `true`
whenever the method is invoked on a `SubmoduleWithBasis`;
`same_ambient` models `self.ambient() is other.ambient()` (line 364);
`self_finite_dimensional` models
`self in ModulesWithBasis.FiniteDimensional` (line 366). -/
def is_submodule {k2 : ℕ} (self : SubmoduleWithBasis K n k)
    (other : SubmoduleWithBasis K n k2)
    (other_is_ambient self_is_instance same_ambient self_finite_dimensional : Bool) :
    IsSubmoduleOutcome :=
  if other_is_ambient then .boolean true
  else if !self_is_instance && same_ambient then .raise_value_error
  else if !self_finite_dimensional then .raise_not_implemented
  else .boolean (is_submodule_generators self other)

/-- The echelon-form precondition the source constructor's contract
assumes of `(basis, support_order, unitriangular)` (spec section 3):
the support order is duplicate-free, every generator has a pivot,
distinct generators have distinct pivots, and when the `unitriangular`
flag is set every pivot coefficient is the ring identity. (That each
echelon vector vanishes at every rank below its pivot holds by
construction here, the pivot being the first nonzero index in order.) -/
abbrev EchelonBasis (S : SubmoduleWithBasis K n k) : Prop :=
  S.support_order.Nodup ∧
  (∀ i, (pivot S i).isSome) ∧
  (∀ i1 i2 j, pivot S i1 = some j → pivot S i2 = some j → i1 = i2) ∧
  (S.unitriangular = true → ∀ i j, pivot S i = some j → S.basis i j = 1)

instance : Fact (Nat.Prime 5) := ⟨by norm_num⟩

/-- The spec's concrete scenario: ambient basis `{0,1,2}`,
`I = span(x0 - x1, x1 - x2)`, support order `[0,1,2]`, unitriangular
(over the field `ZMod 5`, where `-1 = 4`). -/
def sampleI : SubmoduleWithBasis (ZMod 5) 3 2 where
  basis := ![![1, 4, 0], ![0, 1, 4]]
  support_order := [0, 1, 2]
  unitriangular := true

/-- `F = span(x0-x1, x1-x2, x2-x3)` in ambient `{0,1,2,3}`. -/
def sampleF : SubmoduleWithBasis (ZMod 5) 4 3 where
  basis := ![![1, 4, 0, 0], ![0, 1, 4, 0], ![0, 0, 1, 4]]
  support_order := [0, 1, 2, 3]
  unitriangular := true

/-- `G = span(x0-x2)` in ambient `{0,1,2,3}`. -/
def sampleG : SubmoduleWithBasis (ZMod 5) 4 1 where
  basis := ![![1, 0, 4, 0]]
  support_order := [0, 1, 2, 3]
  unitriangular := true

/-- `H = span(x0-x1, x2)` in ambient `{0,1,2,3}`. -/
def sampleH : SubmoduleWithBasis (ZMod 5) 4 2 where
  basis := ![![1, 4, 0, 0], ![0, 0, 1, 0]]
  support_order := [0, 1, 2, 3]
  unitriangular := true

/-- The 1-dimensional submodule `span(x0 - x1)` of a 2-dimensional
ambient module (the spec's non-membership example). -/
def sampleJ : SubmoduleWithBasis (ZMod 5) 2 1 where
  basis := ![![1, 4]]
  support_order := [0, 1]
  unitriangular := true

theorem find?_append_not_mem {α : Type} (p : α → Bool) (l1 l2 : List α) (a : α)
    (ha : a ∉ l1) (h : List.find? p (l1 ++ l2) = some a) :
    (∀ x ∈ l1, p x = false) ∧ List.find? p l2 = some a := by
  induction l1 with
  | nil => exact ⟨by simp, by simpa using h⟩
  | cons b t ih =>
    rw [List.cons_append] at h
    by_cases hpb : p b = true
    · rw [List.find?_cons_of_pos _ hpb] at h
      injection h with h2
      exact absurd (h2 ▸ List.mem_cons_self b t) ha
    · rw [List.find?_cons_of_neg _ hpb] at h
      have hat : a ∉ t := fun hm => ha (List.mem_cons_of_mem _ hm)
      obtain ⟨h1, h2⟩ := ih hat h
      refine ⟨fun x hx => ?_, h2⟩
      rcases List.mem_cons.mp hx with rfl | hx2
      · exact Bool.eq_false_iff.mpr (fun hc => hpb (by rw [hc]))
      · exact h1 x hx2

theorem pivot_mem (S : SubmoduleWithBasis K n k) (i : Fin k) (jp : Fin n)
    (hp : pivot S i = some jp) : jp ∈ S.support_order :=
  List.mem_of_find?_eq_some hp

theorem pivot_coeff_ne_zero (S : SubmoduleWithBasis K n k) (i : Fin k) (jp : Fin n)
    (hp : pivot S i = some jp) : S.basis i jp ≠ 0 := by
  unfold pivot at hp
  have h2 := @List.find?_some (Fin n) (fun m => decide (S.basis i m ≠ 0)) jp
    S.support_order hp
  simpa using h2

theorem pivotGen_pivot (S : SubmoduleWithBasis K n k) (j : Fin n) (i : Fin k)
    (h : pivotGen S j = some i) : pivot S i = some j := by
  unfold pivotGen at h
  have h2 := @List.find?_some (Fin k) (fun i2 => decide (pivot S i2 = some j)) i
    (List.finRange k) h
  simpa using h2

theorem pivotGen_none (S : SubmoduleWithBasis K n k) (j : Fin n)
    (h : pivotGen S j = none) (i : Fin k) : pivot S i ≠ some j := by
  have h2 := List.find?_eq_none.mp h i (List.mem_finRange i)
  simpa using h2

theorem basis_eq_zero_before (S : SubmoduleWithBasis K n k)
    (hnd : S.support_order.Nodup) (l1 l2 : List (Fin n))
    (hso : S.support_order = l1 ++ l2) (i : Fin k) (jp : Fin n)
    (hp : pivot S i = some jp) (hjp : jp ∈ l2) :
    ∀ j ∈ l1, S.basis i j = 0 := by
  have hnd2 : (l1 ++ l2).Nodup := hso ▸ hnd
  have hjp1 : jp ∉ l1 := fun hm => (List.nodup_append.mp hnd2).2.2 hm hjp
  have hp2 : List.find? (fun m => decide (S.basis i m ≠ 0)) (l1 ++ l2) = some jp := by
    rw [← hso]; exact hp
  obtain ⟨h1, _⟩ := find?_append_not_mem _ l1 l2 jp hjp1 hp2
  intro j hj
  have h3 := h1 j hj
  simpa using h3

theorem elimCoeff_zero (S : SubmoduleWithBasis K n k) (i : Fin k) (j : Fin n) :
    elimCoeff S i j 0 = 0 := by
  unfold elimCoeff
  split
  · rfl
  · rw [zero_div]

theorem elimCoeff_mul (S : SubmoduleWithBasis K n k) (i : Fin k) (j : Fin n)
    (huni : S.unitriangular = true → S.basis i j = 1) (hb : S.basis i j ≠ 0) (c : K) :
    elimCoeff S i j (c * S.basis i j) = c := by
  unfold elimCoeff
  by_cases h : S.unitriangular = true
  · rw [if_pos h, huni h, mul_one]
  · rw [if_neg h, mul_div_cancel_right₀ c hb]

theorem elimCoeff_sub_self (S : SubmoduleWithBasis K n k) (i : Fin k) (j : Fin n)
    (huni : S.unitriangular = true → S.basis i j = 1) (hb : S.basis i j ≠ 0) (t : K) :
    t - elimCoeff S i j t * S.basis i j = 0 := by
  unfold elimCoeff
  by_cases h : S.unitriangular = true
  · rw [if_pos h, huni h, mul_one, sub_self]
  · rw [if_neg h, div_mul_cancel₀ t hb, sub_self]

theorem elimCoeff_linear (S : SubmoduleWithBasis K n k) (i : Fin k) (j : Fin n)
    (a t1 t2 : K) :
    elimCoeff S i j (a * t1 + t2) = a * elimCoeff S i j t1 + elimCoeff S i j t2 := by
  unfold elimCoeff
  split
  · rfl
  · rw [add_div, mul_div_assoc]

theorem lift_update_zero (S : SubmoduleWithBasis K n k) (z : Fin k → K) (i : Fin k)
    (m : Fin n) :
    lift S (Function.update z i 0) m = lift S z m - z i * S.basis i m := by
  unfold lift
  have h1 : (fun x => Function.update z i 0 x * S.basis x m)
      = Function.update (fun x => z x * S.basis x m) i 0 := by
    funext x
    by_cases hx : x = i
    · subst hx; simp
    · simp [Function.update_noteq hx]
  rw [h1, Finset.sum_update_of_mem (Finset.mem_univ i), zero_add, eq_sub_iff_add_eq]
  exact (Finset.sum_eq_sum_diff_singleton_add (Finset.mem_univ i)
    (fun x => z x * S.basis x m)).symm

theorem lift_acc_shift (S : SubmoduleWithBasis K n k) (c acc : Fin k → K) (i : Fin k)
    (e : K) (m : Fin n) :
    lift S (fun i2 => c i2 - acc i2) m
      = lift S (fun i2 => c i2 - (if i2 = i then acc i2 + e else acc i2)) m
        + e * S.basis i m := by
  unfold lift
  have hpt : ∀ i2, (c i2 - acc i2) * S.basis i2 m
      = (c i2 - (if i2 = i then acc i2 + e else acc i2)) * S.basis i2 m
        + (if i2 = i then e * S.basis i2 m else 0) := by
    intro i2
    by_cases h2 : i2 = i
    · rw [if_pos h2, if_pos h2]; ring
    · rw [if_neg h2, if_neg h2]; ring
  calc ∑ i2, (c i2 - acc i2) * S.basis i2 m
      = ∑ i2, ((c i2 - (if i2 = i then acc i2 + e else acc i2)) * S.basis i2 m
          + (if i2 = i then e * S.basis i2 m else 0)) :=
        Finset.sum_congr rfl (fun i2 _ => hpt i2)
    _ = (∑ i2, (c i2 - (if i2 = i then acc i2 + e else acc i2)) * S.basis i2 m)
          + ∑ i2, (if i2 = i then e * S.basis i2 m else 0) := Finset.sum_add_distrib
    _ = (∑ i2, (c i2 - (if i2 = i then acc i2 + e else acc i2)) * S.basis i2 m)
          + e * S.basis i m := by
        rw [Finset.sum_ite_eq' Finset.univ i (fun i2 => e * S.basis i2 m),
          if_pos (Finset.mem_univ i)]

theorem reduceAux_fixed (S : SubmoduleWithBasis K n k) :
    ∀ (l : List (Fin n)) (v : Fin n → K),
      (∀ j ∈ l, ∀ i, pivotGen S j = some i → v j = 0) →
      reduceAux S l v = v := by
  intro l
  induction l with
  | nil => intro v _; rfl
  | cons j rest ih =>
    intro v hv
    cases hpg : pivotGen S j with
    | some i =>
      have hvj : v j = 0 := hv j (List.mem_cons_self j rest) i hpg
      simp only [reduceAux, hpg]
      have hres : (fun m => v m - elimCoeff S i j (v j) * S.basis i m) = v := by
        funext m
        rw [hvj, elimCoeff_zero, zero_mul, sub_zero]
      rw [hres]
      exact ih v (fun j2 hj2 => hv j2 (List.mem_cons_of_mem _ hj2))
    | none =>
      simp only [reduceAux, hpg]
      exact ih v (fun j2 hj2 => hv j2 (List.mem_cons_of_mem _ hj2))

theorem reduceAux_linear (S : SubmoduleWithBasis K n k) (a : K) :
    ∀ (l : List (Fin n)) (v w : Fin n → K),
      reduceAux S l (fun m => a * v m + w m)
        = fun m => a * reduceAux S l v m + reduceAux S l w m := by
  intro l
  induction l with
  | nil => intro v w; rfl
  | cons j rest ih =>
    intro v w
    cases hpg : pivotGen S j with
    | some i =>
      simp only [reduceAux, hpg]
      have hres : (fun m => (a * v m + w m)
            - elimCoeff S i j (a * v j + w j) * S.basis i m)
          = fun m => a * (v m - elimCoeff S i j (v j) * S.basis i m)
              + (w m - elimCoeff S i j (w j) * S.basis i m) := by
        funext m
        rw [elimCoeff_linear]
        ring
      rw [hres]
      exact ih _ _
    | none =>
      simp only [reduceAux, hpg]
      exact ih v w

theorem solveAux_sound (S : SubmoduleWithBasis K n k) :
    ∀ (l : List (Fin n)) (r : Fin n → K) (acc c : Fin k → K),
      solveAux S l r acc = some c →
      ∀ m, r m = lift S (fun i2 => c i2 - acc i2) m := by
  intro l
  induction l with
  | nil =>
    intro r acc c h m
    simp only [solveAux] at h
    by_cases hr : ∀ m2, r m2 = 0
    · rw [if_pos hr] at h
      injection h with h2
      subst h2
      rw [hr m]
      unfold lift
      symm
      apply Finset.sum_eq_zero
      intro i2 _
      simp
    · rw [if_neg hr] at h
      exact Option.noConfusion h
  | cons j rest ih =>
    intro r acc c h m
    cases hpg : pivotGen S j with
    | none =>
      simp only [solveAux, hpg] at h
      by_cases hrj : r j = 0
      · rw [if_pos hrj] at h
        exact ih r acc c h m
      · rw [if_neg hrj] at h
        exact Option.noConfusion h
    | some i =>
      simp only [solveAux, hpg] at h
      have h2 := ih _ _ c h m
      rw [lift_acc_shift S c acc i (elimCoeff S i j (r j)) m, ← h2]
      ring

theorem lift_head_none (S : SubmoduleWithBasis K n k) (hnd : S.support_order.Nodup)
    (pre rest : List (Fin n)) (j : Fin n) (hso : S.support_order = pre ++ j :: rest)
    (z : Fin k → K)
    (hz : ∀ i2, z i2 ≠ 0 → ∃ jp, pivot S i2 = some jp ∧ jp ∈ j :: rest)
    (hpg : pivotGen S j = none) :
    lift S z j = 0 := by
  unfold lift
  apply Finset.sum_eq_zero
  intro i2 _
  by_cases hz2 : z i2 = 0
  · rw [hz2, zero_mul]
  · obtain ⟨jp, hp, hmem⟩ := hz i2 hz2
    have hne : jp ≠ j := fun he => pivotGen_none S j hpg i2 (he ▸ hp)
    have hjr : jp ∈ rest := by
      rcases List.mem_cons.mp hmem with he | hr
      · exact absurd he hne
      · exact hr
    have hb : S.basis i2 j = 0 :=
      basis_eq_zero_before S hnd (pre ++ [j]) rest
        (by rw [hso, List.append_assoc, List.singleton_append]) i2 jp hp hjr j (by simp)
    rw [hb, mul_zero]

theorem lift_head_some (S : SubmoduleWithBasis K n k) (hnd : S.support_order.Nodup)
    (hinj : ∀ i1 i2 j2, pivot S i1 = some j2 → pivot S i2 = some j2 → i1 = i2)
    (pre rest : List (Fin n)) (j : Fin n) (hso : S.support_order = pre ++ j :: rest)
    (z : Fin k → K)
    (hz : ∀ i2, z i2 ≠ 0 → ∃ jp, pivot S i2 = some jp ∧ jp ∈ j :: rest)
    (i : Fin k) (hpg : pivotGen S j = some i) :
    lift S z j = z i * S.basis i j := by
  have hpi : pivot S i = some j := pivotGen_pivot S j i hpg
  unfold lift
  apply Finset.sum_eq_single i
  · intro i2 _ hne
    by_cases hz2 : z i2 = 0
    · rw [hz2, zero_mul]
    · obtain ⟨jp, hp, hmem⟩ := hz i2 hz2
      have hnej : jp ≠ j := fun he => hne (hinj i2 i j (he ▸ hp) hpi)
      have hjr : jp ∈ rest := by
        rcases List.mem_cons.mp hmem with he | hr
        · exact absurd he hnej
        · exact hr
      have hb : S.basis i2 j = 0 :=
        basis_eq_zero_before S hnd (pre ++ [j]) rest
          (by rw [hso, List.append_assoc, List.singleton_append]) i2 jp hp hjr j (by simp)
      rw [hb, mul_zero]
  · intro hni
    exact absurd (Finset.mem_univ i) hni

theorem solveAux_complete (S : SubmoduleWithBasis K n k)
    (hnd : S.support_order.Nodup)
    (hinj : ∀ i1 i2 j2, pivot S i1 = some j2 → pivot S i2 = some j2 → i1 = i2)
    (huni : S.unitriangular = true → ∀ i j2, pivot S i = some j2 → S.basis i j2 = 1) :
    ∀ (rest pre : List (Fin n)), S.support_order = pre ++ rest →
    ∀ (z acc : Fin k → K),
      (∀ i2, z i2 ≠ 0 → ∃ jp, pivot S i2 = some jp ∧ jp ∈ rest) →
      solveAux S rest (lift S z) acc = some (fun i2 => acc i2 + z i2) := by
  intro rest
  induction rest with
  | nil =>
    intro pre hso z acc hz
    have hz0 : ∀ i2, z i2 = 0 := by
      intro i2
      by_contra hne
      obtain ⟨jp, _, hmem⟩ := hz i2 hne
      exact absurd hmem (List.not_mem_nil jp)
    have hl : ∀ m, lift S z m = 0 := by
      intro m
      unfold lift
      apply Finset.sum_eq_zero
      intro i2 _
      rw [hz0 i2, zero_mul]
    simp only [solveAux]
    rw [if_pos hl]
    congr 1
    funext i2
    rw [hz0 i2, add_zero]
  | cons j rest ih =>
    intro pre hso z acc hz
    cases hpg : pivotGen S j with
    | some i =>
      have hpi : pivot S i = some j := pivotGen_pivot S j i hpg
      have hb : S.basis i j ≠ 0 := pivot_coeff_ne_zero S i j hpi
      have hlj : lift S z j = z i * S.basis i j :=
        lift_head_some S hnd hinj pre rest j hso z hz i hpg
      have hc : elimCoeff S i j (lift S z j) = z i := by
        rw [hlj]
        exact elimCoeff_mul S i j (fun hu => huni hu i j hpi) hb (z i)
      simp only [solveAux, hpg]
      have hres : (fun m => lift S z m - elimCoeff S i j (lift S z j) * S.basis i m)
          = lift S (Function.update z i 0) := by
        funext m
        rw [hc, lift_update_zero]
      rw [hres, hc]
      have hz2 : ∀ i2, Function.update z i 0 i2 ≠ 0 →
          ∃ jp, pivot S i2 = some jp ∧ jp ∈ rest := by
        intro i2 hne
        have hi2 : i2 ≠ i := by
          intro he
          subst he
          rw [Function.update_same] at hne
          exact hne rfl
        rw [Function.update_noteq hi2] at hne
        obtain ⟨jp, hp, hmem⟩ := hz i2 hne
        have hnej : jp ≠ j := fun he => hi2 (hinj i2 i j (he ▸ hp) hpi)
        rcases List.mem_cons.mp hmem with he | hr
        · exact absurd he hnej
        · exact ⟨jp, hp, hr⟩
      rw [ih (pre ++ [j]) (by rw [hso, List.append_assoc, List.singleton_append]) (Function.update z i 0)
        (fun i2 => if i2 = i then acc i2 + z i else acc i2) hz2]
      congr 1
      funext i2
      by_cases h2 : i2 = i
      · subst h2
        rw [if_pos rfl, Function.update_same, add_zero]
      · rw [if_neg h2, Function.update_noteq h2]
    | none =>
      have hlj : lift S z j = 0 := lift_head_none S hnd pre rest j hso z hz hpg
      simp only [solveAux, hpg]
      rw [if_pos hlj]
      apply ih (pre ++ [j]) (by rw [hso, List.append_assoc, List.singleton_append]) z acc
      intro i2 hne
      obtain ⟨jp, hp, hmem⟩ := hz i2 hne
      have hnej : jp ≠ j := fun he => pivotGen_none S j hpg i2 (he ▸ hp)
      rcases List.mem_cons.mp hmem with he | hr
      · exact absurd he hnej
      · exact ⟨jp, hp, hr⟩

theorem reduceAux_lift_eq_zero (S : SubmoduleWithBasis K n k)
    (hnd : S.support_order.Nodup)
    (hinj : ∀ i1 i2 j2, pivot S i1 = some j2 → pivot S i2 = some j2 → i1 = i2)
    (huni : S.unitriangular = true → ∀ i j2, pivot S i = some j2 → S.basis i j2 = 1) :
    ∀ (rest pre : List (Fin n)), S.support_order = pre ++ rest →
    ∀ z : Fin k → K,
      (∀ i2, z i2 ≠ 0 → ∃ jp, pivot S i2 = some jp ∧ jp ∈ rest) →
      reduceAux S rest (lift S z) = fun _ => 0 := by
  intro rest
  induction rest with
  | nil =>
    intro pre hso z hz
    have hz0 : ∀ i2, z i2 = 0 := by
      intro i2
      by_contra hne
      obtain ⟨jp, _, hmem⟩ := hz i2 hne
      exact absurd hmem (List.not_mem_nil jp)
    funext m
    show lift S z m = 0
    unfold lift
    apply Finset.sum_eq_zero
    intro i2 _
    rw [hz0 i2, zero_mul]
  | cons j rest ih =>
    intro pre hso z hz
    cases hpg : pivotGen S j with
    | some i =>
      have hpi : pivot S i = some j := pivotGen_pivot S j i hpg
      have hb : S.basis i j ≠ 0 := pivot_coeff_ne_zero S i j hpi
      have hlj : lift S z j = z i * S.basis i j :=
        lift_head_some S hnd hinj pre rest j hso z hz i hpg
      have hc : elimCoeff S i j (lift S z j) = z i := by
        rw [hlj]
        exact elimCoeff_mul S i j (fun hu => huni hu i j hpi) hb (z i)
      simp only [reduceAux, hpg]
      have hres : (fun m => lift S z m - elimCoeff S i j (lift S z j) * S.basis i m)
          = lift S (Function.update z i 0) := by
        funext m
        rw [hc, lift_update_zero]
      rw [hres]
      apply ih (pre ++ [j]) (by rw [hso, List.append_assoc, List.singleton_append])
      intro i2 hne
      have hi2 : i2 ≠ i := by
        intro he
        subst he
        rw [Function.update_same] at hne
        exact hne rfl
      rw [Function.update_noteq hi2] at hne
      obtain ⟨jp, hp, hmem⟩ := hz i2 hne
      have hnej : jp ≠ j := fun he => hi2 (hinj i2 i j (he ▸ hp) hpi)
      rcases List.mem_cons.mp hmem with he | hr
      · exact absurd he hnej
      · exact ⟨jp, hp, hr⟩
    | none =>
      simp only [reduceAux, hpg]
      apply ih (pre ++ [j]) (by rw [hso, List.append_assoc, List.singleton_append]) z
      intro i2 hne
      obtain ⟨jp, hp, hmem⟩ := hz i2 hne
      have hnej : jp ≠ j := fun he => pivotGen_none S j hpg i2 (he ▸ hp)
      rcases List.mem_cons.mp hmem with he | hr
      · exact absurd he hnej
      · exact ⟨jp, hp, hr⟩

theorem reduceAux_zero_at_pivots (S : SubmoduleWithBasis K n k)
    (hnd : S.support_order.Nodup)
    (huni : S.unitriangular = true → ∀ i j2, pivot S i = some j2 → S.basis i j2 = 1) :
    ∀ (rest pre : List (Fin n)), S.support_order = pre ++ rest →
    ∀ v : Fin n → K,
      (∀ j2 ∈ pre, ∀ i2, pivotGen S j2 = some i2 → v j2 = 0) →
      ∀ j i, pivotGen S j = some i → reduceAux S rest v j = 0 := by
  intro rest
  induction rest with
  | nil =>
    intro pre hso v hv j i hpg
    have hj : j ∈ pre := by
      have hm := pivot_mem S i j (pivotGen_pivot S j i hpg)
      rwa [hso, List.append_nil] at hm
    exact hv j hj i hpg
  | cons j0 rest ih =>
    intro pre hso v hv j i hpg
    cases hpg0 : pivotGen S j0 with
    | some i0 =>
      have hpi0 : pivot S i0 = some j0 := pivotGen_pivot S j0 i0 hpg0
      have hb0 : S.basis i0 j0 ≠ 0 := pivot_coeff_ne_zero S i0 j0 hpi0
      simp only [reduceAux, hpg0]
      apply ih (pre ++ [j0]) (by rw [hso, List.append_assoc, List.singleton_append]) _ _ j i hpg
      intro j2 hj2 i2 hpg2
      rcases List.mem_append.mp hj2 with hj2p | hj2s
      · have hv2 : v j2 = 0 := hv j2 hj2p i2 hpg2
        have hb2 : S.basis i0 j2 = 0 :=
          basis_eq_zero_before S hnd pre (j0 :: rest) hso i0 j0 hpi0
            (List.mem_cons_self j0 rest) j2 hj2p
        show v j2 - elimCoeff S i0 j0 (v j0) * S.basis i0 j2 = 0
        rw [hv2, hb2, mul_zero, sub_zero]
      · have hj2e : j2 = j0 := by simpa using hj2s
        subst hj2e
        show v j2 - elimCoeff S i0 j2 (v j2) * S.basis i0 j2 = 0
        exact elimCoeff_sub_self S i0 j2 (fun hu => huni hu i0 j2 hpi0) hb0 (v j2)
    | none =>
      simp only [reduceAux, hpg0]
      apply ih (pre ++ [j0]) (by rw [hso, List.append_assoc, List.singleton_append]) v _ j i hpg
      intro j2 hj2 i2 hpg2
      rcases List.mem_append.mp hj2 with hj2p | hj2s
      · exact hv j2 hj2p i2 hpg2
      · have hj2e : j2 = j0 := by simpa using hj2s
        subst hj2e
        rw [hpg0] at hpg2
        exact Option.noConfusion hpg2

theorem solve_sound (S : SubmoduleWithBasis K n k) (v : Fin n → K) (c : Fin k → K)
    (h : solve_coefficients S v = some c) : v = lift S c := by
  funext m
  have h2 := solveAux_sound S S.support_order v (fun _ => 0) c h m
  have h3 : (fun i2 => c i2 - (fun _ => (0 : K)) i2) = c := by
    funext i2
    show c i2 - 0 = c i2
    rw [sub_zero]
  rw [h3] at h2
  exact h2

theorem retract_lift_eq (S : SubmoduleWithBasis K n k)
    (hnd : S.support_order.Nodup)
    (hpiv : ∀ i, (pivot S i).isSome)
    (hinj : ∀ i1 i2 j2, pivot S i1 = some j2 → pivot S i2 = some j2 → i1 = i2)
    (huni : S.unitriangular = true → ∀ i j2, pivot S i = some j2 → S.basis i j2 = 1)
    (y : Fin k → K) : retract S (lift S y) = some y := by
  unfold retract solve_coefficients
  have hz : ∀ i2, y i2 ≠ 0 → ∃ jp, pivot S i2 = some jp ∧ jp ∈ S.support_order := by
    intro i2 _
    obtain ⟨jp, hjp⟩ := Option.isSome_iff_exists.mp (hpiv i2)
    exact ⟨jp, hjp, pivot_mem S i2 jp hjp⟩
  rw [solveAux_complete S hnd hinj huni S.support_order [] rfl y (fun _ => 0) hz]
  congr 1
  funext i2
  show 0 + y i2 = y i2
  rw [zero_add]

theorem reduce_zero_at_pivot (S : SubmoduleWithBasis K n k)
    (hnd : S.support_order.Nodup)
    (huni : S.unitriangular = true → ∀ i j2, pivot S i = some j2 → S.basis i j2 = 1)
    (v : Fin n → K) (j : Fin n) (i : Fin k) (hpg : pivotGen S j = some i) :
    reduce S v j = 0 :=
  reduceAux_zero_at_pivots S hnd huni S.support_order [] rfl v
    (fun j2 hj2 => absurd hj2 (List.not_mem_nil j2)) j i hpg

/-- Claim C1: for every `SubmoduleWithBasis` constructed from an
echelon-form basis with its support order, and every element `y` of the
submodule, `retract (lift y) = y` exactly — `retract` is a left inverse
of the embedding `lift` on all of the submodule. -/
theorem lift_retract_inverse (S : SubmoduleWithBasis K n k)
    (hE : EchelonBasis S) (y : Fin k → K) :
    retract S (lift S y) = some y :=
  retract_lift_eq S hE.1 hE.2.1 hE.2.2.1 hE.2.2.2 y

theorem lift_retract_inverse_witness :
    EchelonBasis sampleI ∧ retract sampleI (lift sampleI ![2, 3]) = some ![2, 3] :=
  ⟨by decide, lift_retract_inverse sampleI (by decide) ![2, 3]⟩

/-- Claim C2: for every `SubmoduleWithBasis` and every ambient element
`v`, `reduce (reduce v) = reduce v` — `reduce` is an idempotent
endomorphism of the ambient module. -/
theorem reduce_idempotent (S : SubmoduleWithBasis K n k)
    (hE : EchelonBasis S) (v : Fin n → K) :
    reduce S (reduce S v) = reduce S v := by
  apply reduceAux_fixed
  intro j _ i hpg
  exact reduce_zero_at_pivot S hE.1 hE.2.2.2 v j i hpg

theorem reduce_idempotent_witness :
    EchelonBasis sampleI ∧
      reduce sampleI (reduce sampleI ![1, 2, 3]) = reduce sampleI ![1, 2, 3] :=
  ⟨by decide, reduce_idempotent sampleI (by decide) ![1, 2, 3]⟩

/-- Claim C3: for every `SubmoduleWithBasis`, every ring scalar `a` and
all ambient elements `v`, `w`:
`reduce (a*v + w) = a * reduce v + reduce w` — `reduce` is an additive,
scalar-linear module homomorphism. -/
theorem reduce_linear (S : SubmoduleWithBasis K n k) (a : K) (v w : Fin n → K) :
    reduce S (fun m => a * v m + w m)
      = fun m => a * reduce S v m + reduce S w m :=
  reduceAux_linear S a S.support_order v w

/-- Claim C4: for every `SubmoduleWithBasis` with an echelon basis,
`reduce (lift y) = 0` for every submodule element `y` (in particular for
every basis generator), and for every ambient `v` the result `reduce v`
has zero coefficient at every pivot index. -/
theorem reduce_kills_submodule (S : SubmoduleWithBasis K n k)
    (hE : EchelonBasis S) :
    (∀ y : Fin k → K, reduce S (lift S y) = fun _ => 0) ∧
    (∀ (v : Fin n → K) (j : Fin n) (i : Fin k),
      pivotGen S j = some i → reduce S v j = 0) := by
  obtain ⟨hnd, hpiv, hinj, huni⟩ := hE
  constructor
  · intro y
    apply reduceAux_lift_eq_zero S hnd hinj huni S.support_order [] rfl y
    intro i2 _
    obtain ⟨jp, hjp⟩ := Option.isSome_iff_exists.mp (hpiv i2)
    exact ⟨jp, hjp, pivot_mem S i2 jp hjp⟩
  · intro v j i hpg
    exact reduce_zero_at_pivot S hnd huni v j i hpg

theorem reduce_kills_submodule_witness :
    EchelonBasis sampleI ∧
      reduce sampleI (lift sampleI ![2, 3]) = (fun _ => 0) ∧
      reduce sampleI ![1, 2, 3] 0 = 0 :=
  ⟨by decide, (reduce_kills_submodule sampleI (by decide)).1 ![2, 3],
    (reduce_kills_submodule sampleI (by decide)).2 ![1, 2, 3] 0 0 (by decide)⟩

/-- Claim C5: for every `QuotientModuleWithBasis` and every quotient
element `q`, `retract (lift q) = q` exactly. -/
theorem quotient_roundtrip (S : SubmoduleWithBasis K n k)
    (q : QuotientIndex S → K) :
    quotient_retract S (quotient_lift S q) = some q := by
  have hz : ∀ j ∈ S.support_order, ∀ i, pivotGen S j = some i →
      quotient_lift S q j = 0 := by
    intro j _ i hpg
    unfold quotient_lift
    rw [dif_neg]
    rw [hpg]
    exact fun h => Option.noConfusion h
  have hred : reduce S (quotient_lift S q) = quotient_lift S q :=
    reduceAux_fixed S S.support_order _ hz
  unfold quotient_retract
  rw [hred, if_pos]
  · congr 1
    funext jq
    obtain ⟨j, hj⟩ := jq
    show quotient_lift S q j = q ⟨j, hj⟩
    unfold quotient_lift
    rw [dif_pos hj]
  · intro j hne
    by_contra hnp
    apply hne
    unfold quotient_lift
    rw [dif_neg hnp]

/-- Claim C6: for every `QuotientModuleWithBasis` built on an
echelon-basis submodule, `quotient_retract` succeeds on every ambient
element — quotient retraction is total. -/
theorem quotient_retract_total (S : SubmoduleWithBasis K n k)
    (hE : EchelonBasis S) (v : Fin n → K) :
    (quotient_retract S v).isSome = true := by
  unfold quotient_retract
  rw [if_pos]
  · rfl
  · intro j hne
    cases hpg : pivotGen S j with
    | none => rfl
    | some i =>
      exact absurd (reduce_zero_at_pivot S hE.1 hE.2.2.2 v j i hpg) hne

theorem quotient_retract_total_witness :
    EchelonBasis sampleI ∧ (quotient_retract sampleI ![1, 0, 0]).isSome = true :=
  ⟨by decide, quotient_retract_total sampleI (by decide) ![1, 0, 0]⟩

/-- Claim C7 (code bug): when `other` lives in a different ambient
module, `is_submodule` is supposed to raise a `ValueError` immediately,
but the guard as written (source line 364,
`not isinstance(self, SubmoduleWithBasis) and self.ambient() is other.ambient()`)
tests the receiver's own class instead of `other` and can never fire on
a `SubmoduleWithBasis` receiver (`self_is_instance = true`): no
`ValueError` is ever raised, for any combination of the remaining
conditions. -/
theorem is_submodule_never_value_error :
    ∀ (K2 : Type) (inst1 : Field K2) (inst2 : DecidableEq K2) (n2 k1 k2 : ℕ)
      (self : SubmoduleWithBasis K2 n2 k1) (other : SubmoduleWithBasis K2 n2 k2)
      (other_is_ambient same_ambient self_finite : Bool),
      is_submodule self other other_is_ambient true same_ambient self_finite
        ≠ IsSubmoduleOutcome.raise_value_error := by
  intro K2 inst1 inst2 n2 k1 k2 self other oia sa fin
  unfold is_submodule
  cases oia with
  | true => simp
  | false =>
    cases fin with
    | true => simp
    | false => simp

/-- Claim C8: on the same ambient module with all guards passed,
`is_submodule` returns true iff every basis generator of `self` retracts
successfully into `other`; and on the spec's concrete instances with
ambient basis `{e0,e1,e2,e3}`: `F.is_submodule(ambient) = True`,
`G.is_submodule(F) = True`, `H.is_submodule(F) = False`. -/
theorem is_submodule_characterization :
    (∀ (K2 : Type) (inst1 : Field K2) (inst2 : DecidableEq K2) (n2 k1 k2 : ℕ)
       (self : SubmoduleWithBasis K2 n2 k1) (other : SubmoduleWithBasis K2 n2 k2),
       is_submodule self other false true true true
           = IsSubmoduleOutcome.boolean true
         ↔ ∀ i, (retract other (self.basis i)).isSome) ∧
    is_submodule sampleF sampleF true true true true
      = IsSubmoduleOutcome.boolean true ∧
    is_submodule sampleG sampleF false true true true
      = IsSubmoduleOutcome.boolean true ∧
    is_submodule sampleH sampleF false true true true
      = IsSubmoduleOutcome.boolean false := by
  refine ⟨?_, by decide, by decide, by decide⟩
  intro K2 inst1 inst2 n2 k1 k2 self other
  unfold is_submodule is_submodule_generators
  simp [List.all_eq_true, List.mem_finRange]

/-- Claim C9: retraction succeeds exactly on ring-linear combinations of
the submodule's basis vectors: for an echelon basis, `retract x` fails
(the `NotInSpanError` outcome, `none`) iff `x` is not in the span. -/
theorem retract_not_in_span (S : SubmoduleWithBasis K n k)
    (hE : EchelonBasis S) (x : Fin n → K) :
    retract S x = none ↔ ¬ ∃ c : Fin k → K, x = lift S c := by
  constructor
  · intro hnone hex
    obtain ⟨c, rfl⟩ := hex
    rw [retract_lift_eq S hE.1 hE.2.1 hE.2.2.1 hE.2.2.2 c] at hnone
    exact Option.noConfusion hnone
  · intro hno
    cases hr : retract S x with
    | none => rfl
    | some c => exact absurd ⟨c, solve_sound S x c hr⟩ hno

theorem retract_not_in_span_witness :
    EchelonBasis sampleJ ∧
      (retract sampleJ ![1, 0] = none
        ↔ ¬ ∃ c : Fin 1 → ZMod 5, ![1, 0] = lift sampleJ c) ∧
      retract sampleJ ![1, 0] = none :=
  ⟨by decide, retract_not_in_span sampleJ (by decide) ![1, 0], by decide⟩

/-- Claim C10: when `other` is the ambient module itself
(`other_is_ambient = true`), `is_submodule` returns `True` immediately,
before and regardless of the finite-dimensionality check — in particular
even with `self_finite_dimensional = false` (an infinite-rank submodule)
no `NotImplementedError` is raised. -/
theorem is_submodule_ambient_short_circuit :
    ∀ (K2 : Type) (inst1 : Field K2) (inst2 : DecidableEq K2) (n2 k1 k2 : ℕ)
      (self : SubmoduleWithBasis K2 n2 k1) (other : SubmoduleWithBasis K2 n2 k2)
      (self_is_instance same_ambient self_finite : Bool),
      is_submodule self other true self_is_instance same_ambient self_finite
        = IsSubmoduleOutcome.boolean true := by
  intro K2 inst1 inst2 n2 k1 k2 self other inst sa fin
  unfold is_submodule
  simp

end Subquotient
